import Mathlib

/-!
Verification of the rsdos container layer: a content-addressed object
store with a loose layout (one file per object) and a packed layout
(objects concatenated into pack files indexed by a catalog).

The Python facade (`crates/pyrsdos/python/rsdos/__init__.py`) is embedded
directly.  The native `_Container` engine it binds to is not part of the
source tree, so its operations are modelled from the specification
(definitions whose doc comments start with `Modelled from the spec:`).
Bytes are lists of naturals (one per byte); 32-bit machine words are
naturals reduced modulo 2^32.
-/

namespace Rsdos

/-- Byte sequences: one natural number per byte. -/
abbrev Bytes := List Nat

/-! ## SHA-256

Modelled from the spec: the Hasher component produces the digest of the raw
bytes under the configured algorithm, whose default is SHA-256, and "must
produce identical output to a reference implementation".  This is a direct
transcription of FIPS 180-4 over naturals modulo 2^32. -/

def w32 : Nat := 4294967296

def add32 (a b : Nat) : Nat := (a + b) % w32

def rotr32 (n x : Nat) : Nat := ((x >>> n) ||| (x <<< (32 - n))) % w32

def not32 (x : Nat) : Nat := x ^^^ 4294967295

def bsig0 (x : Nat) : Nat := rotr32 2 x ^^^ rotr32 13 x ^^^ rotr32 22 x

def bsig1 (x : Nat) : Nat := rotr32 6 x ^^^ rotr32 11 x ^^^ rotr32 25 x

def ssig0 (x : Nat) : Nat := rotr32 7 x ^^^ rotr32 18 x ^^^ (x >>> 3)

def ssig1 (x : Nat) : Nat := rotr32 17 x ^^^ rotr32 19 x ^^^ (x >>> 10)

def ch32 (x y z : Nat) : Nat := (x &&& y) ^^^ (not32 x &&& z)

def maj32 (x y z : Nat) : Nat := (x &&& y) ^^^ (x &&& z) ^^^ (y &&& z)

def sha256K : List Nat :=
  [1116352408, 1899447441, 3049323471, 3921009573, 961987163,
   1508970993, 2453635748, 2870763221, 3624381080, 310598401,
   607225278, 1426881987, 1925078388, 2162078206, 2614888103,
   3248222580, 3835390401, 4022224774, 264347078, 604807628,
   770255983, 1249150122, 1555081692, 1996064986, 2554220882,
   2821834349, 2952996808, 3210313671, 3336571891, 3584528711,
   113926993, 338241895, 666307205, 773529912, 1294757372,
   1396182291, 1695183700, 1986661051, 2177026350, 2456956037,
   2730485921, 2820302411, 3259730800, 3345764771, 3516065817,
   3600352804, 4094571909, 275423344, 430227734, 506948616,
   659060556, 883997877, 958139571, 1322822218, 1537002063,
   1747873779, 1955562222, 2024104815, 2227730452, 2361852424,
   2428436474, 2756734187, 3204031479, 3329325298]

def sha256H0 : List Nat :=
  [1779033703, 3144134277, 1013904242, 2773480762,
   1359893119, 2600822924, 528734635, 1541459225]

/-- Padding: append 0x80, zeros to 56 mod 64, then the 64-bit big-endian bit length. -/
def padMsg (m : Bytes) : Bytes :=
  let bitLen := 8 * m.length
  let zeros := (119 - m.length % 64) % 64
  m ++ [0x80] ++ List.replicate zeros 0 ++
    (List.range 8).map (fun i => (bitLen >>> (8 * (7 - i))) % 256)

/-- Split a padded message into 64-byte blocks.  Structural recursion on a
fuel bound so that the kernel can evaluate it; `bs.length` steps always
suffice since every step consumes at least one byte. -/
def toBlocksAux : Nat → Bytes → List Bytes
  | 0, _ => []
  | _, [] => []
  | fuel + 1, bs => bs.take 64 :: toBlocksAux fuel (bs.drop 64)

def toBlocks (bs : Bytes) : List Bytes :=
  toBlocksAux bs.length bs

/-- The sixteen 32-bit big-endian words of one 64-byte block. -/
def toWords (block : Bytes) : List Nat :=
  (List.range 16).map (fun i =>
    block.getD (4 * i) 0 * 16777216 + block.getD (4 * i + 1) 0 * 65536 +
      block.getD (4 * i + 2) 0 * 256 + block.getD (4 * i + 3) 0)

/-- Message-schedule extension: append `t` further words to the 16 block words. -/
def extendSched (w : List Nat) : Nat → List Nat
  | 0 => w
  | t + 1 =>
    let w' := extendSched w t
    let n := w'.length
    w' ++ [add32 (add32 (ssig1 (w'.getD (n - 2) 0)) (w'.getD (n - 7) 0))
             (add32 (ssig0 (w'.getD (n - 15) 0)) (w'.getD (n - 16) 0))]

/-- One compression round on the eight-word working state. -/
def sha256Round (w : List Nat) (st : List Nat) (t : Nat) : List Nat :=
  match st with
  | [a, b, c, d, e, f, g, h] =>
    let t1 := (h + bsig1 e + ch32 e f g + sha256K.getD t 0 + w.getD t 0) % w32
    let t2 := (bsig0 a + maj32 a b c) % w32
    [(t1 + t2) % w32, a, b, c, (d + t1) % w32, e, f, g]
  | _ => st

/-- Process one 64-byte block, updating the eight hash words. -/
def processBlock (hs : Bytes) (block : Bytes) : List Nat :=
  let w := extendSched (toWords block) 48
  let st := (List.range 64).foldl (sha256Round w) hs
  List.zipWith add32 hs st

def hexDigit (n : Nat) : Char :=
  if n < 10 then Char.ofNat (48 + n) else Char.ofNat (87 + n)

/-- Lowercase hexadecimal rendering of a 32-bit word, eight digits. -/
def toHex8 (x : Nat) : String :=
  String.mk ((List.range 8).map (fun i => hexDigit ((x >>> (4 * (7 - i))) % 16)))

/-- Modelled from the spec: the canonical hash key of a byte sequence is the
lowercase hexadecimal SHA-256 digest of the raw bytes (default `hash_type`). -/
def sha256Hex (m : Bytes) : String :=
  String.join (((toBlocks (padMsg m)).foldl processBlock sha256H0).map toHex8)

/-! ## Container state

The facade `Container` in `crates/pyrsdos/python/rsdos/__init__.py` wraps a
native `_Container`.  Its state is modelled from the spec's data model:
loose objects (one file per hash key), the catalog of packed-object rows,
and the pack files `packs/<N>` indexed by `pack_id`. -/

/-- Association-list lookup returning the first binding of a key. -/
def alookup {α : Type} (k : String) : List (String × α) → Option α
  | [] => none
  | (k', v) :: rest => if k' = k then some v else alookup k rest

/-- Modelled from the spec: a catalog row
`hashkey → (pack_id, offset, length, size, compressed, compression_name)`. -/
structure Row where
  pack_id : Nat
  offset : Nat
  length : Nat
  size : Nat
  compressed : Bool
  compression_name : String
deriving DecidableEq, Repr

/-- A streaming codec: `encode` compresses, `decode` decompresses.  The
concrete zlib codec lives outside the source tree; theorems assume only its
round-trip contract `decode (encode x) = x`. -/
structure Codec where
  encode : Bytes → Bytes
  decode : Bytes → Bytes

/-- The identity codec, used to instantiate witnesses. -/
def idCodec : Codec := ⟨id, id⟩

/-- Compression behaviours, from `CompressMode` in the Python source. -/
inductive CompressMode where
  | NO
  | YES
  | KEEP
  | AUTO
deriving DecidableEq, Repr

/-- Modelled from the spec: the container's on-disk state — loose objects
keyed by hash key, the catalog, the pack files in `pack_id` order, and the
configured `pack_size_target`. -/
structure Cnt where
  loose : List (String × Bytes)
  catalog : List (String × Row)
  packs : List Bytes
  pack_size_target : Nat
deriving DecidableEq, Repr

/-- Modelled from the spec: `init_container` creates the empty layout. -/
def initContainer (pack_size_target : Nat) : Cnt :=
  ⟨[], [], [], pack_size_target⟩

/-! ## Loose store -/

/-- Modelled from the spec: `LooseStore.insert(source) → (size, hashkey)` —
hash the stream, and publish it at `loose/<key...>` unless the destination
already exists (idempotent).  This is `_Container.insert_to_loose`. -/
def insert_to_loose (S : Cnt) (content : Bytes) : Cnt × (Nat × String) :=
  let h := sha256Hex content
  match alookup h S.loose with
  | some _ => (S, (content.length, h))
  | none => ({ S with loose := S.loose ++ [(h, content)] }, (content.length, h))

/-- From the source: `Container.add_streamed_object` returns the hash key of
`insert_to_loose`. -/
def add_streamed_object (S : Cnt) (content : Bytes) : Cnt × String :=
  let r := insert_to_loose S content
  (r.1, r.2.2)

/-- From the source: `Container.add_object` wraps the bytes in a stream and
delegates to `add_streamed_object`. -/
def add_object (S : Cnt) (content : Bytes) : Cnt × String :=
  add_streamed_object S content

/-- Modelled from the spec: `LooseStore.copy_to` / `write_stream_from_loose`
fails with `NotFound` when the key is absent, else yields the stored bytes. -/
def write_stream_from_loose (S : Cnt) (hashkey : String) : Option Bytes :=
  alookup hashkey S.loose

/-! ## Pack writer and reader -/

/-- Modelled from the spec: `PackWriter.append_stream` — if the current pack
has reached `pack_size_target` the write rolls over to a fresh pack
(decision made before writing); returns `(pack_id, offset)` of the appended
bytes. -/
def append_stream (S : Cnt) (data : Bytes) : Cnt × (Nat × Nat) :=
  match S.packs.getLast? with
  | none => ({ S with packs := [data] }, (0, 0))
  | some cur =>
    if S.pack_size_target ≤ cur.length then
      ({ S with packs := S.packs ++ [data] }, (S.packs.length, 0))
    else
      ({ S with packs := S.packs.set (S.packs.length - 1) (cur ++ data) },
       (S.packs.length - 1, cur.length))

/-- Modelled from the spec: insert one object into the packed layout —
skip entirely if the key already has a catalog row (duplicate insert is a
no-op), else append the (possibly encoded) bytes and add the row.  Returns
`(size, hashkey)` like the native tuples. -/
def packOne (cd : Codec) (compress : Bool) (S : Cnt) (content : Bytes) :
    Cnt × (Nat × String) :=
  let h := sha256Hex content
  match alookup h S.catalog with
  | some _ => (S, (content.length, h))
  | none =>
    let data := if compress then cd.encode content else content
    let r := append_stream S data
    ({ r.1 with catalog := r.1.catalog ++
        [(h, ⟨r.2.1, r.2.2, data.length, content.length, compress,
              if compress then "zlib:+1" else ""⟩)] },
     (content.length, h))

/-- Modelled from the spec: `_Container.insert_many_to_packs` — one batch,
outputs correspond 1:1 to inputs in order; the bound native call receives
only the content list, so the write is uncompressed. -/
def insert_many_to_packs (S : Cnt) (contents : List Bytes) :
    Cnt × List (Nat × String) :=
  contents.foldl
    (fun acc content =>
      let r := packOne idCodec false acc.1 content
      (r.1, acc.2 ++ [r.2]))
    (S, [])

/-- From the source: `Container.add_objects_to_pack` — forwards only the
content list to `insert_many_to_packs` and returns `[i[1] for i in ...]`;
every keyword argument is accepted and ignored. -/
def add_objects_to_pack {α β : Type} (S : Cnt) (content_list : List Bytes)
    (compress : α) (no_holes : Bool) (no_holes_read_twice : Bool)
    (callback : Option β) (do_fsync : Bool) (do_commit : Bool) :
    Cnt × List String :=
  let r := insert_many_to_packs S content_list
  (r.1, r.2.map (fun i => i.2))

/-- Modelled from the spec: `PackReader.read` — seek to `offset`, read
exactly `length` bytes; fails if the pack is shorter than
`offset + length`. -/
def read_from_packs (S : Cnt) (r : Row) : Option Bytes :=
  if r.offset + r.length ≤ (S.packs.getD r.pack_id []).length then
    some (((S.packs.getD r.pack_id []).drop r.offset).take r.length)
  else none

/-- Modelled from the spec: fetch one object from the packed layout —
catalog lookup, pack read, decode when the row is compressed.  This is
`_Container.write_stream_from_packs`; `NotFound` is `none`. -/
def extract_from_packs (cd : Codec) (S : Cnt) (hashkey : String) : Option Bytes :=
  (alookup hashkey S.catalog).bind (fun r =>
    (read_from_packs S r).map (fun bs => if r.compressed then cd.decode bs else bs))

/-! ## Facade reads -/

/-- From the source: `Container.get_object_content` — try the loose store;
on `ValueError` try the packs; on `ValueError` again return `None`. -/
def get_object_content (cd : Codec) (S : Cnt) (hashkey : String) : Option Bytes :=
  match write_stream_from_loose S hashkey with
  | some v => some v
  | none => extract_from_packs cd S hashkey

/-- Keep the first occurrence of every key, dropping later duplicates; the
iteration order of a native mapping keyed by the request list. -/
def dedupKeysAux (seen : List String) : List String → List String
  | [] => []
  | k :: rest =>
    if k ∈ seen then dedupKeysAux seen rest
    else k :: dedupKeysAux (k :: seen) rest

def dedupKeys (ks : List String) : List String :=
  dedupKeysAux [] ks

/-- Insertion into a mapping with dict semantics: update the binding in
place when the key exists, else append. -/
def dinsert {α : Type} (k : String) (v : α) (d : List (String × α)) :
    List (String × α) :=
  if k ∈ d.map (fun kv => kv.1) then
    d.map (fun kv => if kv.1 = k then (k, v) else kv)
  else d ++ [(k, v)]

/-- Modelled from the spec: `_Container.extract_many_from_loose` — a mapping
from each requested key to its loose bytes, `none` when absent. -/
def extract_many_from_loose (S : Cnt) (hashkeys : List String) :
    List (String × Option Bytes) :=
  (dedupKeys hashkeys).map (fun k => (k, alookup k S.loose))

/-- From the source: `Container.get_loose_objects_content_raw_rs` — split
the loose query result into found bindings and a `not_found` list; absent
keys are bound to `None` only when `skip_if_missing` is false. -/
def get_loose_objects_content_raw_rs (S : Cnt) (hashkeys : List String)
    (skip_if_missing : Bool) :
    List (String × Option Bytes) × List String :=
  (extract_many_from_loose S hashkeys).foldl
    (fun acc kv =>
      match kv.2 with
      | some v => (dinsert kv.1 (some v) acc.1, acc.2)
      | none =>
        (if skip_if_missing then acc.1 else dinsert kv.1 none acc.1,
         acc.2 ++ [kv.1]))
    ([], [])

/-- Modelled from the spec: `_Container.extract_many_from_packs` — batched
catalog lookup plus pack reads; missing keys are absent from the result. -/
def extract_many_from_packs (cd : Codec) (S : Cnt) (hashkeys : List String) :
    List (String × Bytes) :=
  (dedupKeys hashkeys).filterMap (fun k =>
    (extract_from_packs cd S k).map (fun bs => (k, bs)))

/-- From the source: `Container.get_objects_content` — loose pass first,
then every `not_found` key is looked up in the packs and merged into the
mapping. -/
def get_objects_content (cd : Codec) (S : Cnt) (hashkeys : List String)
    (skip_if_missing : Bool) : List (String × Option Bytes) :=
  let r := get_loose_objects_content_raw_rs S hashkeys skip_if_missing
  (extract_many_from_packs cd S r.2).foldl
    (fun d kv => dinsert kv.1 (some kv.2) d) r.1

/-! ## Packing all loose objects -/

/-- Modelled from the spec: whether a write under the given mode compresses.
`KEEP` is vacuous on loose objects (they are stored raw), so it behaves as
`NO`; `AUTO` is the deterministic prefix heuristic suggested by the spec
(compress when the first 4 KiB shrink to at most 90%). -/
def shouldCompress (cd : Codec) (mode : CompressMode) (content : Bytes) : Bool :=
  match mode with
  | .NO => false
  | .KEEP => false
  | .YES => true
  | .AUTO => (cd.encode (content.take 4096)).length * 10 ≤ (content.take 4096).length * 9

/-- Modelled from the spec: one step of `pack_all_loose` — if the key
already has a catalog row only the loose file is deleted; otherwise the
bytes are appended through the pack writer, the catalog row is inserted,
and the loose file is deleted. -/
def packLooseOne (cd : Codec) (mode : CompressMode) (S : Cnt)
    (kv : String × Bytes) : Cnt :=
  match alookup kv.1 S.catalog with
  | some _ => { S with loose := S.loose.filter (fun p => p.1 ≠ kv.1) }
  | none =>
    let comp := shouldCompress cd mode kv.2
    let data := if comp then cd.encode kv.2 else kv.2
    let r := append_stream S data
    { r.1 with
      catalog := r.1.catalog ++
        [(kv.1, ⟨r.2.1, r.2.2, data.length, kv.2.length, comp,
                 if comp then "zlib:+1" else ""⟩)],
      loose := r.1.loose.filter (fun p => p.1 ≠ kv.1) }

/-- Modelled from the spec: `_Container.pack_all_loose` — enumerate the
loose keys and migrate each into the packed layout. -/
def rs_pack_all_loose (cd : Codec) (mode : CompressMode) (S : Cnt) : Cnt :=
  S.loose.foldl (packLooseOne cd mode) S

/-- From the source: `Container.pack_all_loose` — a `bool` compress argument
is converted to `YES`/`NO` for legacy compatibility, then the native call
receives the mode; `validate_objects` and `do_fsync` are not forwarded. -/
def pack_all_loose (cd : Codec) (S : Cnt) (compress : Sum Bool CompressMode)
    (validate_objects : Bool) (do_fsync : Bool) : Cnt :=
  let compress_mode :=
    match compress with
    | .inl true => CompressMode.YES
    | .inl false => CompressMode.NO
    | .inr m => m
  rs_pack_all_loose cd compress_mode S

/-! ## Counting and listing -/

/-- Modelled from the spec: `count_objects` / `_Container.get_n_objs` —
number of loose files plus number of catalog rows. -/
def count_objects (S : Cnt) : Nat :=
  S.loose.length + S.catalog.length

/-- Modelled from the spec: `count_pack_file` — the number of pack files
present under `packs/`. -/
def count_pack_file (S : Cnt) : Nat :=
  S.packs.length

/-- From the source: `Container.list_all_objects` iterates the two levels of
the loose directory with `Path.iterdir` and yields
`f"{first_level}{second_level}"`.  Both loop variables are full paths
(`folder/loose/<xx>` and `folder/loose/<xx>/<rest>`), so the yielded string
is their concatenation; packed keys are never visited. -/
def list_all_objects (folder : String) (S : Cnt) : List String :=
  (dedupKeys (S.loose.map (fun kv => kv.1.take 2))).flatMap (fun p =>
    (S.loose.filter (fun kv => kv.1.take 2 = p)).map (fun kv =>
      (folder ++ "/loose/" ++ p) ++
        (folder ++ "/loose/" ++ p ++ "/" ++ kv.1.drop 2)))

/-- Number of catalog rows carrying a given hash key. -/
def countKey (k : String) (catalog : List (String × Row)) : Nat :=
  (catalog.filter (fun p => p.1 = k)).length

/-! ## Association-list lemmas -/

theorem alookup_append {α : Type} (k : String) (l₁ l₂ : List (String × α)) :
    alookup k (l₁ ++ l₂) =
      match alookup k l₁ with
      | some v => some v
      | none => alookup k l₂ := by
  induction l₁ with
  | nil => rfl
  | cons p rest ih =>
    by_cases h : p.1 = k
    · simp [alookup, h]
    · simp [alookup, h, ih]

theorem alookup_singleton_same {α : Type} (k : String) (v : α) :
    alookup k [(k, v)] = some v := by
  simp [alookup]

/-- Looking up the key just appended to a list that lacked it. -/
theorem alookup_append_self {α : Type} (k : String) (v : α)
    (l : List (String × α)) (h : alookup k l = none) :
    alookup k (l ++ [(k, v)]) = some v := by
  rw [alookup_append, h]
  exact alookup_singleton_same k v

theorem alookup_eq_none_of_not_mem_keys {α : Type} (k : String)
    (l : List (String × α)) (h : k ∉ l.map Prod.fst) : alookup k l = none := by
  induction l with
  | nil => rfl
  | cons p rest ih =>
    simp only [List.map_cons, List.mem_cons] at h
    push_neg at h
    have hne : p.1 ≠ k := fun hh => h.1 hh.symm
    simp [alookup, hne, ih h.2]

/-! ## Basic facts about single loose writes -/

theorem add_object_of_some (S : Cnt) (content w : Bytes)
    (h : alookup (sha256Hex content) S.loose = some w) :
    add_object S content = (S, sha256Hex content) := by
  simp [add_object, add_streamed_object, insert_to_loose, h]

theorem add_object_of_none (S : Cnt) (content : Bytes)
    (h : alookup (sha256Hex content) S.loose = none) :
    add_object S content =
      ({ S with loose := S.loose ++ [(sha256Hex content, content)] },
       sha256Hex content) := by
  simp [add_object, add_streamed_object, insert_to_loose, h]

theorem add_object_key (S : Cnt) (content : Bytes) :
    (add_object S content).2 = sha256Hex content := by
  cases h : alookup (sha256Hex content) S.loose with
  | some w => rw [add_object_of_some S content w h]
  | none => rw [add_object_of_none S content h]

theorem add_object_lookup (S : Cnt) (content : Bytes) :
    ∃ v, alookup (sha256Hex content) (add_object S content).1.loose = some v ∧
      (∀ w, alookup (sha256Hex content) S.loose = some w → v = w) ∧
      (alookup (sha256Hex content) S.loose = none → v = content) := by
  cases h : alookup (sha256Hex content) S.loose with
  | some w =>
    rw [add_object_of_some S content w h]
    exact ⟨w, h, fun w' hw' => Option.some.inj hw',
           fun hn => Option.noConfusion hn⟩
  | none =>
    rw [add_object_of_none S content h]
    exact ⟨content, alookup_append_self _ content S.loose h,
           fun _ hw' => Option.noConfusion hw', fun _ => rfl⟩

theorem add_object_state_of_present (S : Cnt) (content : Bytes)
    (h : alookup (sha256Hex content) S.loose ≠ none) :
    (add_object S content).1 = S := by
  cases hl : alookup (sha256Hex content) S.loose with
  | some w => rw [add_object_of_some S content w hl]
  | none => exact absurd hl h

set_option maxRecDepth 10000 in
/-- C6: `add_object` (through `add_streamed_object` and the loose insert)
returns the lowercase hexadecimal SHA-256 digest of the content under the
default `sha256` hash type; in particular `add_object(b"test")` returns
`9f86d081884c7d659a2feaa0c55ad015a3bf4f1b2b0b822cd15d6c15b0f00a08`. -/
theorem add_object_returns_sha256_digest :
    (∀ (S : Cnt) (content : Bytes), (add_object S content).2 = sha256Hex content) ∧
    (add_object (initContainer 4294967296) [116, 101, 115, 116]).2 =
      "9f86d081884c7d659a2feaa0c55ad015a3bf4f1b2b0b822cd15d6c15b0f00a08" := by
  refine ⟨add_object_key, ?_⟩
  rw [add_object_key]
  decide

/-- C1: after `add_object(b)` on a container whose loose store is consistent
at the key of `b` (any object already published under that hash key has
content `b` — content addressing without a collision), reading the returned
key with `get_object_content` yields exactly `b`. -/
theorem add_object_get_object_content_round_trip (cd : Codec) (S : Cnt)
    (b : Bytes)
    (hconsistent : ∀ v, alookup (sha256Hex b) S.loose = some v → v = b) :
    get_object_content cd (add_object S b).1 (add_object S b).2 = some b := by
  obtain ⟨v, hv, hsome, hnone⟩ := add_object_lookup S b
  have hkey := add_object_key S b
  have hvb : v = b := by
    cases h : alookup (sha256Hex b) S.loose with
    | some w => exact (hsome w h).trans (hconsistent w h)
    | none => exact hnone h
  rw [hkey]
  unfold get_object_content write_stream_from_loose
  rw [hv, hvb]

/-- Witness for C1 at an initialised empty container and `b"5"`. -/
theorem add_object_get_object_content_round_trip_witness :
    get_object_content idCodec (add_object (initContainer 10) [53]).1
      (add_object (initContainer 10) [53]).2 = some [53] :=
  add_object_get_object_content_round_trip idCodec (initContainer 10) [53]
    (by intro v hv; simp [initContainer, alookup] at hv)

/-- C9: adding the same bytes three times returns the same key every time,
leaves the container state of the first add unchanged, and keeps
`count_objects` at the value after the first add — which is `1` on an
initially empty container. -/
theorem add_object_idempotent (S : Cnt) (b : Bytes) (t : Nat) :
    (add_object (add_object S b).1 b).2 = (add_object S b).2 ∧
    (add_object (add_object (add_object S b).1 b).1 b).2 = (add_object S b).2 ∧
    (add_object (add_object S b).1 b).1 = (add_object S b).1 ∧
    (add_object (add_object (add_object S b).1 b).1 b).1 = (add_object S b).1 ∧
    count_objects (add_object (add_object (add_object S b).1 b).1 b).1 =
      count_objects (add_object S b).1 ∧
    count_objects
      (add_object (add_object (add_object (initContainer t) b).1 b).1 b).1 = 1 := by
  obtain ⟨v, hv, -, -⟩ := add_object_lookup S b
  have h2 : (add_object (add_object S b).1 b).1 = (add_object S b).1 :=
    add_object_state_of_present _ b (by rw [hv]; exact fun h => by cases h)
  have h3 : (add_object (add_object (add_object S b).1 b).1 b).1 =
      (add_object S b).1 := by rw [h2]; exact h2
  obtain ⟨v', hv', -, -⟩ := add_object_lookup (initContainer t) b
  have e2 : (add_object (add_object (initContainer t) b).1 b).1 =
      (add_object (initContainer t) b).1 :=
    add_object_state_of_present _ b (by rw [hv']; exact fun h => by cases h)
  have e3 : (add_object (add_object (add_object (initContainer t) b).1 b).1 b).1 =
      (add_object (initContainer t) b).1 := by rw [e2]; exact e2
  refine ⟨by rw [add_object_key, add_object_key],
          by rw [add_object_key, add_object_key], h2, h3, by rw [h3], ?_⟩
  rw [e3, add_object_of_none (initContainer t) b rfl]
  simp [initContainer, count_objects]

/-- The returned `(size, hashkey)` pair of a single packed insert does not
depend on the branch taken. -/
theorem packOne_pair (cd : Codec) (compress : Bool) (S : Cnt) (content : Bytes) :
    (packOne cd compress S content).2 = (content.length, sha256Hex content) := by
  unfold packOne
  cases h : alookup (sha256Hex content) S.catalog <;> simp [h]

theorem insert_many_to_packs_pairs (contents : List Bytes) :
    ∀ (S : Cnt) (acc : List (Nat × String)),
      (contents.foldl
        (fun acc content =>
          let r := packOne idCodec false acc.1 content
          (r.1, acc.2 ++ [r.2]))
        (S, acc)).2 =
      acc ++ contents.map (fun c => (c.length, sha256Hex c)) := by
  induction contents with
  | nil => intro S acc; simp
  | cons c rest ih =>
    intro S acc
    simp only [List.foldl_cons, List.map_cons]
    rw [ih, packOne_pair]
    simp

/-- C4: `add_objects_to_pack(L, ...)` returns exactly the digests of the
inputs, in input order, whatever the batch contains (duplicates included —
the catalog insert for a repeated key is a no-op but the key is still
returned). -/
theorem add_objects_to_pack_returns_digests {α β : Type} (S : Cnt)
    (content_list : List Bytes) (compress : α) (no_holes : Bool)
    (no_holes_read_twice : Bool) (callback : Option β) (do_fsync : Bool)
    (do_commit : Bool) :
    (add_objects_to_pack S content_list compress no_holes no_holes_read_twice
        callback do_fsync do_commit).2 =
      content_list.map sha256Hex := by
  simp only [add_objects_to_pack, insert_many_to_packs]
  rw [insert_many_to_packs_pairs]
  simp

/-- C10: the result of `add_objects_to_pack` is independent of every keyword
argument — the call forwards only the content list to
`insert_many_to_packs`. -/
theorem add_objects_to_pack_ignores_kwargs {α₁ β₁ α₂ β₂ : Type} (S : Cnt)
    (content_list : List Bytes) (c₁ : α₁) (n₁ t₁ : Bool) (cb₁ : Option β₁)
    (f₁ m₁ : Bool) (c₂ : α₂) (n₂ t₂ : Bool) (cb₂ : Option β₂) (f₂ m₂ : Bool) :
    add_objects_to_pack S content_list c₁ n₁ t₁ cb₁ f₁ m₁ =
      add_objects_to_pack S content_list c₂ n₂ t₂ cb₂ f₂ m₂ ∧
    add_objects_to_pack S content_list c₁ n₁ t₁ cb₁ f₁ m₁ =
      ((insert_many_to_packs S content_list).1,
       (insert_many_to_packs S content_list).2.map (fun i => i.2)) :=
  ⟨rfl, rfl⟩

/-- C3: lookup precedence of `get_object_content` — a loose hit returns the
loose bytes; on a loose miss the result is exactly the packed extraction;
when the key is absent from the catalog as well the result is the
`NotFound` marker `none`. -/
theorem get_object_content_precedence (cd : Codec) (S : Cnt) (k : String) :
    (∀ v, alookup k S.loose = some v → get_object_content cd S k = some v) ∧
    (alookup k S.loose = none →
      get_object_content cd S k = extract_from_packs cd S k) ∧
    (alookup k S.loose = none → alookup k S.catalog = none →
      get_object_content cd S k = none) := by
  refine ⟨?_, ?_, ?_⟩
  · intro v hv
    unfold get_object_content write_stream_from_loose
    rw [hv]
  · intro hn
    unfold get_object_content write_stream_from_loose
    rw [hn]
  · intro hn hc
    unfold get_object_content write_stream_from_loose extract_from_packs
    rw [hn, hc]
    rfl

/-- Witness for C3 on a container holding one loose object, one packed
object and nothing else. -/
theorem get_object_content_precedence_witness :
    get_object_content idCodec
      ⟨[("aa", [1])], [("bb", ⟨0, 0, 1, 1, false, ""⟩)], [[2]], 10⟩ "aa" =
      some [1] ∧
    get_object_content idCodec
      ⟨[("aa", [1])], [("bb", ⟨0, 0, 1, 1, false, ""⟩)], [[2]], 10⟩ "bb" =
      extract_from_packs idCodec
        ⟨[("aa", [1])], [("bb", ⟨0, 0, 1, 1, false, ""⟩)], [[2]], 10⟩ "bb" ∧
    get_object_content idCodec
      ⟨[("aa", [1])], [("bb", ⟨0, 0, 1, 1, false, ""⟩)], [[2]], 10⟩ "zz" =
      none :=
  ⟨(get_object_content_precedence idCodec _ "aa").1 [1] (by decide),
   (get_object_content_precedence idCodec _ "bb").2.1 (by decide),
   (get_object_content_precedence idCodec _ "zz").2.2 (by decide) (by decide)⟩

/-! ## Mapping semantics of the batched read (C7) -/

theorem alookup_map_update {α : Type} (k : String) (v : α)
    (d : List (String × α)) (h : k ∈ d.map (fun kv => kv.1)) :
    alookup k (d.map (fun kv => if kv.1 = k then (k, v) else kv)) = some v := by
  induction d with
  | nil => cases h
  | cons p rest ih =>
    obtain ⟨p1, p2⟩ := p
    simp only [List.map_cons]
    by_cases hp : p1 = k
    · rw [if_pos hp]
      simp [alookup]
    · rw [if_neg hp]
      have hk : k ∈ rest.map (fun kv => kv.1) := by
        rcases List.mem_cons.mp h with hh | hh
        · exact absurd hh.symm hp
        · exact hh
      rw [show alookup k ((p1, p2) ::
          rest.map (fun kv => if kv.1 = k then (k, v) else kv)) =
        if p1 = k then some p2
        else alookup k (rest.map (fun kv => if kv.1 = k then (k, v) else kv))
        from rfl, if_neg hp]
      exact ih hk

theorem alookup_map_update_ne {α : Type} (k k' : String) (v : α)
    (d : List (String × α)) (h : k' ≠ k) :
    alookup k (d.map (fun kv => if kv.1 = k' then (k', v) else kv)) =
      alookup k d := by
  induction d with
  | nil => rfl
  | cons p rest ih =>
    obtain ⟨p1, p2⟩ := p
    simp only [List.map_cons]
    by_cases hp : p1 = k'
    · rw [if_pos hp]
      rw [show alookup k ((k', v) ::
          rest.map (fun kv => if kv.1 = k' then (k', v) else kv)) =
        if k' = k then some v
        else alookup k (rest.map (fun kv => if kv.1 = k' then (k', v) else kv))
        from rfl, if_neg h]
      rw [show alookup k ((p1, p2) :: rest) =
        if p1 = k then some p2 else alookup k rest from rfl,
        if_neg (by rw [hp]; exact h)]
      exact ih
    · rw [if_neg hp]
      rw [show alookup k ((p1, p2) ::
          rest.map (fun kv => if kv.1 = k' then (k', v) else kv)) =
        if p1 = k then some p2
        else alookup k (rest.map (fun kv => if kv.1 = k' then (k', v) else kv))
        from rfl]
      rw [show alookup k ((p1, p2) :: rest) =
        if p1 = k then some p2 else alookup k rest from rfl]
      by_cases hk : p1 = k
      · rw [if_pos hk, if_pos hk]
      · rw [if_neg hk, if_neg hk]
        exact ih

theorem alookup_dinsert_self {α : Type} (k : String) (v : α)
    (d : List (String × α)) : alookup k (dinsert k v d) = some v := by
  unfold dinsert
  by_cases h : k ∈ d.map (fun kv => kv.1)
  · rw [if_pos h]
    exact alookup_map_update k v d h
  · rw [if_neg h]
    exact alookup_append_self k v d
      (alookup_eq_none_of_not_mem_keys k d (by simpa using h))

theorem alookup_dinsert_ne {α : Type} (k k' : String) (v : α)
    (d : List (String × α)) (h : k' ≠ k) :
    alookup k (dinsert k' v d) = alookup k d := by
  unfold dinsert
  by_cases hm : k' ∈ d.map (fun kv => kv.1)
  · rw [if_pos hm]
    exact alookup_map_update_ne k k' v d h
  · rw [if_neg hm, alookup_append]
    cases hd : alookup k d with
    | some w => rfl
    | none => simp [alookup, h]

theorem dedupKeysAux_spec (ks : List String) :
    ∀ seen : List String, (dedupKeysAux seen ks).Nodup ∧
      (∀ x, x ∈ dedupKeysAux seen ks ↔ x ∈ ks ∧ x ∉ seen) := by
  induction ks with
  | nil => intro seen; exact ⟨List.nodup_nil, by simp [dedupKeysAux]⟩
  | cons a rest ih =>
    intro seen
    unfold dedupKeysAux
    by_cases ha : a ∈ seen
    · rw [if_pos ha]
      obtain ⟨h1, h2⟩ := ih seen
      refine ⟨h1, fun x => ?_⟩
      rw [h2 x]
      constructor
      · rintro ⟨hx, hs⟩; exact ⟨List.mem_cons_of_mem a hx, hs⟩
      · rintro ⟨hx, hs⟩
        rcases List.mem_cons.mp hx with rfl | hx'
        · exact absurd ha hs
        · exact ⟨hx', hs⟩
    · rw [if_neg ha]
      obtain ⟨h1, h2⟩ := ih (a :: seen)
      constructor
      · refine List.nodup_cons.mpr ⟨fun hmem => ?_, h1⟩
        exact ((h2 a).mp hmem).2 (by simp)
      · intro x
        constructor
        · intro hx
          rcases List.mem_cons.mp hx with rfl | hx'
          · exact ⟨by simp, ha⟩
          · obtain ⟨hx1, hx2⟩ := (h2 x).mp hx'
            exact ⟨List.mem_cons_of_mem a hx1, fun hs => hx2 (by simp [hs])⟩
        · rintro ⟨hx, hs⟩
          rcases List.mem_cons.mp hx with rfl | hx'
          · exact List.mem_cons_self x _
          · by_cases hxa : x = a
            · subst hxa; exact List.mem_cons_self x _
            · exact List.mem_cons_of_mem a
                ((h2 x).mpr ⟨hx', by simp [hxa, hs]⟩)

theorem dedupKeys_nodup (ks : List String) : (dedupKeys ks).Nodup :=
  (dedupKeysAux_spec ks []).1

theorem mem_dedupKeys (ks : List String) (x : String) :
    x ∈ dedupKeys ks ↔ x ∈ ks := by
  rw [dedupKeys, (dedupKeysAux_spec ks []).2 x]
  simp

theorem mem_filterMap_pack (g : String → Option Bytes) (ks : List String)
    (k : String) (w : Bytes) :
    (k, w) ∈ ks.filterMap (fun k => (g k).map (fun bs => (k, bs))) ↔
      k ∈ ks ∧ g k = some w := by
  rw [List.mem_filterMap]
  constructor
  · rintro ⟨a, ha, hmap⟩
    cases hg : g a with
    | none => rw [hg] at hmap; cases hmap
    | some w' =>
      rw [hg] at hmap
      simp only [Option.map_some', Option.some.injEq, Prod.mk.injEq] at hmap
      obtain ⟨rfl, rfl⟩ := hmap
      exact ⟨ha, hg⟩
  · rintro ⟨hk, hg⟩
    exact ⟨k, hk, by rw [hg]; rfl⟩

theorem keys_filterMap_pack_sub (g : String → Option Bytes) (ks : List String)
    (k : String)
    (h : k ∈ (ks.filterMap (fun k => (g k).map (fun bs => (k, bs)))).map
      (fun kv => kv.1)) : k ∈ ks ∧ (g k).isSome := by
  obtain ⟨kv, hkv, rfl⟩ := List.mem_map.mp h
  obtain ⟨hmem, hg⟩ := (mem_filterMap_pack g ks kv.1 kv.2).mp hkv
  exact ⟨hmem, by rw [hg]; rfl⟩

theorem keys_filterMap_pack_nodup (g : String → Option Bytes)
    (ks : List String) (h : ks.Nodup) :
    ((ks.filterMap (fun k => (g k).map (fun bs => (k, bs)))).map
      (fun kv => kv.1)).Nodup := by
  induction ks with
  | nil => exact List.nodup_nil
  | cons a rest ih =>
    rw [List.filterMap_cons]
    have hrest := ih (List.nodup_cons.mp h).2
    cases hg : g a with
    | none => exact hrest
    | some w =>
      simp only [Option.map_some', List.map_cons]
      refine List.nodup_cons.mpr ⟨fun hmem => ?_, hrest⟩
      exact (List.nodup_cons.mp h).1 (keys_filterMap_pack_sub g rest a hmem).1

theorem fold_dinsert_not_mem (m : List (String × Bytes)) :
    ∀ (d : List (String × Option Bytes)) (k : String),
      k ∉ m.map (fun kv => kv.1) →
      alookup k (m.foldl (fun d kv => dinsert kv.1 (some kv.2) d) d) =
        alookup k d := by
  induction m with
  | nil => intro d k _; rfl
  | cons kv rest ih =>
    intro d k h
    simp only [List.map_cons, List.mem_cons] at h
    push_neg at h
    rw [List.foldl_cons, ih _ k h.2,
      alookup_dinsert_ne k kv.1 (some kv.2) d (fun hh => h.1 hh.symm)]

theorem fold_dinsert_mem (m : List (String × Bytes)) :
    ∀ (d : List (String × Option Bytes)) (k : String) (w : Bytes),
      (k, w) ∈ m → (m.map (fun kv => kv.1)).Nodup →
      alookup k (m.foldl (fun d kv => dinsert kv.1 (some kv.2) d) d) =
        some (some w) := by
  induction m with
  | nil => intro d k w hin; cases hin
  | cons kv rest ih =>
    intro d k w hin hnd
    simp only [List.map_cons, List.nodup_cons] at hnd
    rw [List.foldl_cons]
    rcases List.mem_cons.mp hin with heq | hmem
    · have hk : kv = (k, w) := heq.symm
      subst hk
      rw [fold_dinsert_not_mem rest _ k hnd.1]
      exact alookup_dinsert_self k (some w) d
    · exact ih _ k w hmem hnd.2

theorem raw_fold_nf (skip : Bool) (l : List (String × Option Bytes)) :
    ∀ acc : List (String × Option Bytes) × List String,
      (l.foldl (fun acc kv =>
        match kv.2 with
        | some v => (dinsert kv.1 (some v) acc.1, acc.2)
        | none => (if skip then acc.1 else dinsert kv.1 none acc.1,
            acc.2 ++ [kv.1])) acc).2 =
      acc.2 ++ (l.filter (fun kv => kv.2.isNone)).map (fun kv => kv.1) := by
  induction l with
  | nil => intro acc; simp
  | cons kv rest ih =>
    intro acc
    rw [List.foldl_cons]
    cases hv : kv.2 with
    | some v => simp [ih, hv, List.filter_cons]
    | none => simp [ih, hv, List.filter_cons]

theorem raw_fold_lookup_not_mem (skip : Bool)
    (l : List (String × Option Bytes)) :
    ∀ (acc : List (String × Option Bytes) × List String) (k : String),
      k ∉ l.map (fun kv => kv.1) →
      alookup k ((l.foldl (fun acc kv =>
        match kv.2 with
        | some v => (dinsert kv.1 (some v) acc.1, acc.2)
        | none => (if skip then acc.1 else dinsert kv.1 none acc.1,
            acc.2 ++ [kv.1])) acc).1) = alookup k acc.1 := by
  induction l with
  | nil => intro acc k _; rfl
  | cons kv rest ih =>
    intro acc k h
    simp only [List.map_cons, List.mem_cons] at h
    push_neg at h
    have hne : kv.1 ≠ k := fun hh => h.1 hh.symm
    rw [List.foldl_cons]
    cases hv : kv.2 with
    | some v =>
      rw [ih _ k h.2]
      exact alookup_dinsert_ne k kv.1 (some v) acc.1 hne
    | none =>
      rw [ih _ k h.2]
      by_cases hs : skip
      · simp [hs]
      · simp only [hs, if_false]
        exact alookup_dinsert_ne k kv.1 none acc.1 hne

theorem raw_fold_lookup_mem (skip : Bool)
    (l : List (String × Option Bytes)) :
    ∀ (acc : List (String × Option Bytes) × List String) (k : String)
      (val : Option Bytes),
      (k, val) ∈ l → (l.map (fun kv => kv.1)).Nodup →
      alookup k acc.1 = none →
      alookup k ((l.foldl (fun acc kv =>
        match kv.2 with
        | some v => (dinsert kv.1 (some v) acc.1, acc.2)
        | none => (if skip then acc.1 else dinsert kv.1 none acc.1,
            acc.2 ++ [kv.1])) acc).1) =
      (match val with
        | some v => some (some v)
        | none => if skip then none else some none) := by
  induction l with
  | nil => intro acc k val hin; cases hin
  | cons kv rest ih =>
    intro acc k val hin hnd hacc
    simp only [List.map_cons, List.nodup_cons] at hnd
    rw [List.foldl_cons]
    rcases List.mem_cons.mp hin with heq | hmem
    · have hk : kv = (k, val) := heq.symm
      subst hk
      cases val with
      | some v =>
        rw [raw_fold_lookup_not_mem skip rest _ k hnd.1]
        exact alookup_dinsert_self k (some v) acc.1
      | none =>
        by_cases hs : skip
        · rw [raw_fold_lookup_not_mem skip rest _ k hnd.1]
          simp only [hs, if_true]
          exact hacc
        · rw [raw_fold_lookup_not_mem skip rest _ k hnd.1]
          simp only [hs, if_false]
          exact alookup_dinsert_self k none acc.1
    · have hne : kv.1 ≠ k := by
        intro hh
        apply hnd.1
        rw [hh]
        exact List.mem_map.mpr ⟨(k, val), hmem, rfl⟩
      have hacc' : alookup k ((match kv.2 with
          | some v => (dinsert kv.1 (some v) acc.1, acc.2)
          | none => (if skip then acc.1 else dinsert kv.1 none acc.1,
              acc.2 ++ [kv.1])) :
          List (String × Option Bytes) × List String).1 = none := by
        cases hv : kv.2 with
        | some v =>
          rw [show ((dinsert kv.1 (some v) acc.1, acc.2) :
            List (String × Option Bytes) × List String).1 =
            dinsert kv.1 (some v) acc.1 from rfl]
          rw [alookup_dinsert_ne k kv.1 (some v) acc.1 hne]
          exact hacc
        | none =>
          cases hsk : skip with
          | true => simpa using hacc
          | false =>
            simpa [alookup_dinsert_ne k kv.1 none acc.1 hne] using hacc
      exact ih _ k val hmem hnd.2 hacc'

theorem extract_many_from_loose_keys (S : Cnt) (ks : List String) :
    (extract_many_from_loose S ks).map (fun kv => kv.1) = dedupKeys ks := by
  unfold extract_many_from_loose
  rw [List.map_map]
  exact List.map_id _

theorem mem_extract_many_from_loose (S : Cnt) (ks : List String) (k : String)
    (h : k ∈ dedupKeys ks) :
    (k, alookup k S.loose) ∈ extract_many_from_loose S ks :=
  List.mem_map.mpr ⟨k, h, rfl⟩

theorem mem_nf_iff (S : Cnt) (ks : List String) (k : String) :
    k ∈ ((extract_many_from_loose S ks).filter
      (fun kv => kv.2.isNone)).map (fun kv => kv.1) ↔
    k ∈ dedupKeys ks ∧ alookup k S.loose = none := by
  constructor
  · intro h
    obtain ⟨kv, hkv, rfl⟩ := List.mem_map.mp h
    have hf := List.mem_filter.mp hkv
    obtain ⟨k', hk', hkk⟩ := List.mem_map.mp hf.1
    have h1 : kv.1 = k' := by rw [← hkk]
    have h2 : kv.2 = alookup k' S.loose := by rw [← hkk]
    refine ⟨h1 ▸ hk', ?_⟩
    have := hf.2
    rw [h2] at this
    rw [h1, ← Option.isNone_iff_eq_none]
    simpa [h2, h1] using this
  · rintro ⟨h1, h2⟩
    refine List.mem_map.mpr ⟨(k, alookup k S.loose),
      List.mem_filter.mpr ⟨mem_extract_many_from_loose S ks k h1, ?_⟩, rfl⟩
    simp [h2]

/-- C7: mapping semantics of `get_objects_content` for every requested key —
a loose hit maps to its bytes, a loose miss that the packed layout can serve
maps to the packed bytes, and a key absent from both layouts is omitted when
`skip_if_missing` is true and bound to the null marker `none` when it is
false. -/
theorem get_objects_content_spec (cd : Codec) (S : Cnt) (hashkeys : List String)
    (skip_if_missing : Bool) (k : String) (hk : k ∈ hashkeys) :
    (∀ v, alookup k S.loose = some v →
      alookup k (get_objects_content cd S hashkeys skip_if_missing) =
        some (some v)) ∧
    (∀ w, alookup k S.loose = none → extract_from_packs cd S k = some w →
      alookup k (get_objects_content cd S hashkeys skip_if_missing) =
        some (some w)) ∧
    (alookup k S.loose = none → alookup k S.catalog = none →
      alookup k (get_objects_content cd S hashkeys skip_if_missing) =
        (if skip_if_missing then none else some none)) := by
  have hkd : k ∈ dedupKeys hashkeys := (mem_dedupKeys hashkeys k).mpr hk
  have hlkeys : (extract_many_from_loose S hashkeys).map (fun kv => kv.1) =
    dedupKeys hashkeys := extract_many_from_loose_keys S hashkeys
  have hlnodup : ((extract_many_from_loose S hashkeys).map
      (fun kv => kv.1)).Nodup := by
    rw [hlkeys]; exact dedupKeys_nodup hashkeys
  have hnf := raw_fold_nf skip_if_missing (extract_many_from_loose S hashkeys)
    ([], [])
  refine ⟨?_, ?_, ?_⟩
  · intro v hv
    simp only [get_objects_content, get_loose_objects_content_raw_rs]
    have hnotp : k ∉ (extract_many_from_packs cd S
        (((extract_many_from_loose S hashkeys).foldl (fun acc kv =>
          match kv.2 with
          | some v => (dinsert kv.1 (some v) acc.1, acc.2)
          | none => (if skip_if_missing then acc.1 else dinsert kv.1 none acc.1,
              acc.2 ++ [kv.1])) ([], [])).2)).map (fun kv => kv.1) := by
      intro hmem
      unfold extract_many_from_packs at hmem
      have hsub := keys_filterMap_pack_sub (extract_from_packs cd S) _ k hmem
      have hknf := (mem_dedupKeys _ k).mp hsub.1
      rw [hnf] at hknf
      simp only [List.nil_append] at hknf
      have := ((mem_nf_iff S hashkeys k).mp hknf).2
      rw [this] at hv
      cases hv
    rw [fold_dinsert_not_mem _ _ k hnotp]
    have := raw_fold_lookup_mem skip_if_missing
      (extract_many_from_loose S hashkeys) ([], []) k (some v)
      (by rw [← hv]; exact mem_extract_many_from_loose S hashkeys k hkd)
      hlnodup rfl
    simpa using this
  · intro w hv hw
    simp only [get_objects_content, get_loose_objects_content_raw_rs]
    have hknf : k ∈ ((extract_many_from_loose S hashkeys).filter
        (fun kv => kv.2.isNone)).map (fun kv => kv.1) :=
      (mem_nf_iff S hashkeys k).mpr ⟨hkd, hv⟩
    have hmem : (k, w) ∈ extract_many_from_packs cd S
        (((extract_many_from_loose S hashkeys).foldl (fun acc kv =>
          match kv.2 with
          | some v => (dinsert kv.1 (some v) acc.1, acc.2)
          | none => (if skip_if_missing then acc.1 else dinsert kv.1 none acc.1,
              acc.2 ++ [kv.1])) ([], [])).2) := by
      unfold extract_many_from_packs
      refine (mem_filterMap_pack (extract_from_packs cd S) _ k w).mpr ⟨?_, hw⟩
      rw [mem_dedupKeys, hnf]
      simpa using hknf
    have hndm : ((extract_many_from_packs cd S
        (((extract_many_from_loose S hashkeys).foldl (fun acc kv =>
          match kv.2 with
          | some v => (dinsert kv.1 (some v) acc.1, acc.2)
          | none => (if skip_if_missing then acc.1 else dinsert kv.1 none acc.1,
              acc.2 ++ [kv.1])) ([], [])).2)).map (fun kv => kv.1)).Nodup := by
      unfold extract_many_from_packs
      exact keys_filterMap_pack_nodup (extract_from_packs cd S) _
        (dedupKeys_nodup _)
    exact fold_dinsert_mem _ _ k w hmem hndm
  · intro hv hc
    have hex : extract_from_packs cd S k = none := by
      simp [extract_from_packs, hc]
    simp only [get_objects_content, get_loose_objects_content_raw_rs]
    have hnotp : k ∉ (extract_many_from_packs cd S
        (((extract_many_from_loose S hashkeys).foldl (fun acc kv =>
          match kv.2 with
          | some v => (dinsert kv.1 (some v) acc.1, acc.2)
          | none => (if skip_if_missing then acc.1 else dinsert kv.1 none acc.1,
              acc.2 ++ [kv.1])) ([], [])).2)).map (fun kv => kv.1) := by
      intro hmem
      unfold extract_many_from_packs at hmem
      have hsub := keys_filterMap_pack_sub (extract_from_packs cd S) _ k hmem
      rw [hex] at hsub
      cases hsub.2
    rw [fold_dinsert_not_mem _ _ k hnotp]
    have := raw_fold_lookup_mem skip_if_missing
      (extract_many_from_loose S hashkeys) ([], []) k none
      (by rw [← hv]; exact mem_extract_many_from_loose S hashkeys k hkd)
      hlnodup rfl
    simpa using this

/-- Witness for C7 on a container with one loose object, one packed object
and one absent key, under both values of `skip_if_missing`. -/
theorem get_objects_content_spec_witness :
    alookup "aa" (get_objects_content idCodec
      ⟨[("aa", [1])], [("bb", ⟨0, 0, 1, 1, false, ""⟩)], [[2]], 10⟩
      ["aa", "bb", "zz"] true) = some (some [1]) ∧
    alookup "bb" (get_objects_content idCodec
      ⟨[("aa", [1])], [("bb", ⟨0, 0, 1, 1, false, ""⟩)], [[2]], 10⟩
      ["aa", "bb", "zz"] true) = some (some [2]) ∧
    alookup "zz" (get_objects_content idCodec
      ⟨[("aa", [1])], [("bb", ⟨0, 0, 1, 1, false, ""⟩)], [[2]], 10⟩
      ["aa", "bb", "zz"] true) = none ∧
    alookup "zz" (get_objects_content idCodec
      ⟨[("aa", [1])], [("bb", ⟨0, 0, 1, 1, false, ""⟩)], [[2]], 10⟩
      ["aa", "bb", "zz"] false) = some none :=
  ⟨(get_objects_content_spec idCodec _ ["aa", "bb", "zz"] true "aa"
      (by decide)).1 [1] (by decide),
   (get_objects_content_spec idCodec _ ["aa", "bb", "zz"] true "bb"
      (by decide)).2.1 [2] (by decide) (by decide),
   by
     have := (get_objects_content_spec idCodec
       ⟨[("aa", [1])], [("bb", ⟨0, 0, 1, 1, false, ""⟩)], [[2]], 10⟩
       ["aa", "bb", "zz"] true "zz" (by decide)).2.2 (by decide) (by decide)
     simpa using this,
   by
     have := (get_objects_content_spec idCodec
       ⟨[("aa", [1])], [("bb", ⟨0, 0, 1, 1, false, ""⟩)], [[2]], 10⟩
       ["aa", "bb", "zz"] false "zz" (by decide)).2.2 (by decide) (by decide)
     simpa using this⟩

/-! ## Append-only extension of pack files -/

/-- Pack files only grow: `Q` extends `P` when every pack of `P` is a
prefix of the corresponding pack of `Q` and packs are only added. -/
def PacksExtend (P Q : List Bytes) : Prop :=
  P.length ≤ Q.length ∧ ∀ i, ∃ tail, Q.getD i [] = P.getD i [] ++ tail

theorem packsExtend_refl (P : List Bytes) : PacksExtend P P :=
  ⟨le_refl _, fun i => ⟨[], by simp⟩⟩

theorem packsExtend_trans {P Q R : List Bytes} (h1 : PacksExtend P Q)
    (h2 : PacksExtend Q R) : PacksExtend P R := by
  refine ⟨le_trans h1.1 h2.1, fun i => ?_⟩
  obtain ⟨t1, ht1⟩ := h1.2 i
  obtain ⟨t2, ht2⟩ := h2.2 i
  exact ⟨t1 ++ t2, by rw [ht2, ht1, List.append_assoc]⟩

theorem getD_eq_nil_of_le (l : List Bytes) (i : Nat) (h : l.length ≤ i) :
    l.getD i [] = [] := by
  simp [List.getD_eq_getElem?_getD, List.getElem?_eq_none h]

theorem getD_append_left (l l₂ : List Bytes) (i : Nat) (h : i < l.length) :
    (l ++ l₂).getD i [] = l.getD i [] := by
  simp [List.getD_eq_getElem?_getD, List.getElem?_append_left h]

theorem packsExtend_nil (Q : List Bytes) : PacksExtend [] Q :=
  ⟨Nat.zero_le _, fun i => ⟨Q.getD i [], by simp⟩⟩

theorem packsExtend_append (P : List Bytes) (d : Bytes) :
    PacksExtend P (P ++ [d]) := by
  refine ⟨by simp, fun i => ?_⟩
  by_cases hi : i < P.length
  · exact ⟨[], by rw [getD_append_left P [d] i hi]; simp⟩
  · exact ⟨(P ++ [d]).getD i [], by
      rw [getD_eq_nil_of_le P i (Nat.le_of_not_lt hi)]; simp⟩

theorem packsExtend_set_last (P : List Bytes) (cur d : Bytes)
    (h : P.getLast? = some cur) :
    PacksExtend P (P.set (P.length - 1) (cur ++ d)) := by
  have hne : P ≠ [] := by intro he; rw [he] at h; cases h
  have hpos : 0 < P.length := List.length_pos.mpr hne
  refine ⟨by simp, fun i => ?_⟩
  by_cases hi : i = P.length - 1
  · subst hi
    have hlt : P.length - 1 < P.length := by omega
    have hget : P.getD (P.length - 1) [] = cur := by
      rw [List.getLast?_eq_getElem?] at h
      simp [List.getD_eq_getElem?_getD, h]
    refine ⟨d, ?_⟩
    rw [hget]
    simp [List.getD_eq_getElem?_getD, List.getElem?_set_self hlt]
  · refine ⟨[], ?_⟩
    simp [List.getD_eq_getElem?_getD, List.getElem?_set_ne (Ne.symm hi)]

/-- Reading a committed region is stable under append-only extension. -/
theorem read_from_packs_extend (S S' : Cnt) (r : Row) (bs : Bytes)
    (hext : PacksExtend S.packs S'.packs)
    (h : read_from_packs S r = some bs) : read_from_packs S' r = some bs := by
  unfold read_from_packs at h ⊢
  obtain ⟨tail, htail⟩ := hext.2 r.pack_id
  split at h
  · rename_i hc
    rw [htail]
    have hoff : r.offset ≤ (S.packs.getD r.pack_id []).length := by omega
    have hc' : r.offset + r.length ≤
        (S.packs.getD r.pack_id [] ++ tail).length := by
      simp only [List.length_append]; omega
    rw [if_pos hc']
    rw [List.drop_append_of_le_length hoff]
    have hlen : r.length ≤ ((S.packs.getD r.pack_id []).drop r.offset).length := by
      rw [List.length_drop]; omega
    rw [List.take_append_of_le_length hlen]
    exact h
  · exact absurd h (by simp)

theorem read_from_packs_congr (S S' : Cnt) (r : Row) (h : S.packs = S'.packs) :
    read_from_packs S r = read_from_packs S' r := by
  simp [read_from_packs, h]

/-! ## Characterisation of the pack writer -/

theorem append_stream_loose (S : Cnt) (d : Bytes) :
    (append_stream S d).1.loose = S.loose := by
  unfold append_stream
  cases hl : S.packs.getLast? with
  | none => rfl
  | some cur => by_cases ht : S.pack_size_target ≤ cur.length <;> simp [ht]

theorem append_stream_catalog (S : Cnt) (d : Bytes) :
    (append_stream S d).1.catalog = S.catalog := by
  unfold append_stream
  cases hl : S.packs.getLast? with
  | none => rfl
  | some cur => by_cases ht : S.pack_size_target ≤ cur.length <;> simp [ht]

theorem append_stream_target (S : Cnt) (d : Bytes) :
    (append_stream S d).1.pack_size_target = S.pack_size_target := by
  unfold append_stream
  cases hl : S.packs.getLast? with
  | none => rfl
  | some cur => by_cases ht : S.pack_size_target ≤ cur.length <;> simp [ht]

theorem append_stream_extends (S : Cnt) (d : Bytes) :
    PacksExtend S.packs (append_stream S d).1.packs := by
  unfold append_stream
  cases hl : S.packs.getLast? with
  | none =>
    have he : S.packs = [] := List.getLast?_eq_none_iff.mp hl
    simpa [he] using packsExtend_nil [d]
  | some cur =>
    by_cases ht : S.pack_size_target ≤ cur.length
    · simpa [ht] using packsExtend_append S.packs d
    · simpa [ht] using packsExtend_set_last S.packs cur d hl

/-- The bytes just appended are readable at the returned location. -/
theorem append_stream_read (S : Cnt) (d : Bytes) (sz : Nat) (cp : Bool)
    (nm : String) :
    read_from_packs (append_stream S d).1
      ⟨(append_stream S d).2.1, (append_stream S d).2.2, d.length, sz, cp, nm⟩ =
      some d := by
  unfold append_stream
  cases hl : S.packs.getLast? with
  | none =>
    simp [read_from_packs]
  | some cur =>
    by_cases ht : S.pack_size_target ≤ cur.length
    · have hget : ((S.packs ++ [d]).getD S.packs.length []) = d := by
        simp [List.getD_eq_getElem?_getD, List.getElem?_append_right (le_refl _)]
      simp [ht, read_from_packs, hget]
    · have hne : S.packs ≠ [] := by
        intro he; rw [he] at hl; cases hl
      have hpos : 0 < S.packs.length := List.length_pos.mpr hne
      have hlt : S.packs.length - 1 < S.packs.length := by omega
      have hget : (S.packs.set (S.packs.length - 1) (cur ++ d)).getD
          (S.packs.length - 1) [] = cur ++ d := by
        simp [List.getD_eq_getElem?_getD, List.getElem?_set_self hlt]
      simp only [ht, if_false, read_from_packs, hget]
      rw [if_pos (by simp)]
      congr 1
      rw [List.drop_left, List.take_length]

/-! ## Characterisation of one packing step -/

/-- Bytes actually written for a loose object under the chosen mode. -/
def packData (cd : Codec) (mode : CompressMode) (v : Bytes) : Bytes :=
  if shouldCompress cd mode v then cd.encode v else v

/-- Catalog row produced when packing a loose object from state `S`. -/
def packRow (cd : Codec) (mode : CompressMode) (S : Cnt) (v : Bytes) : Row :=
  ⟨(append_stream S (packData cd mode v)).2.1,
   (append_stream S (packData cd mode v)).2.2,
   (packData cd mode v).length, v.length, shouldCompress cd mode v,
   if shouldCompress cd mode v then "zlib:+1" else ""⟩

theorem packLooseOne_of_dup (cd : Codec) (mode : CompressMode) (S : Cnt)
    (kv : String × Bytes) (r : Row) (h : alookup kv.1 S.catalog = some r) :
    packLooseOne cd mode S kv =
      { S with loose := S.loose.filter (fun p => p.1 ≠ kv.1) } := by
  simp [packLooseOne, h]

theorem packLooseOne_of_fresh (cd : Codec) (mode : CompressMode) (S : Cnt)
    (kv : String × Bytes) (h : alookup kv.1 S.catalog = none) :
    packLooseOne cd mode S kv =
      { (append_stream S (packData cd mode kv.2)).1 with
        catalog := (append_stream S (packData cd mode kv.2)).1.catalog ++
          [(kv.1, packRow cd mode S kv.2)],
        loose := (append_stream S (packData cd mode kv.2)).1.loose.filter
          (fun p => p.1 ≠ kv.1) } := by
  simp [packLooseOne, packData, packRow, h]

theorem packLooseOne_loose (cd : Codec) (mode : CompressMode) (S : Cnt)
    (kv : String × Bytes) :
    (packLooseOne cd mode S kv).loose =
      S.loose.filter (fun p => p.1 ≠ kv.1) := by
  cases h : alookup kv.1 S.catalog with
  | some r => rw [packLooseOne_of_dup cd mode S kv r h]
  | none => simp [packLooseOne, h, append_stream_loose]

theorem packLooseOne_target (cd : Codec) (mode : CompressMode) (S : Cnt)
    (kv : String × Bytes) :
    (packLooseOne cd mode S kv).pack_size_target = S.pack_size_target := by
  cases h : alookup kv.1 S.catalog with
  | some r => rw [packLooseOne_of_dup cd mode S kv r h]
  | none => simp [packLooseOne, h, append_stream_target]

theorem packLooseOne_catalog_cases (cd : Codec) (mode : CompressMode) (S : Cnt)
    (kv : String × Bytes) :
    (packLooseOne cd mode S kv).catalog = S.catalog ∨
    ∃ r', (packLooseOne cd mode S kv).catalog = S.catalog ++ [(kv.1, r')] := by
  cases h : alookup kv.1 S.catalog with
  | some r => left; rw [packLooseOne_of_dup cd mode S kv r h]
  | none =>
    right
    refine ⟨packRow cd mode S kv.2, ?_⟩
    rw [packLooseOne_of_fresh cd mode S kv h]
    show (append_stream S (packData cd mode kv.2)).1.catalog ++ _ = _
    rw [append_stream_catalog]

theorem packLooseOne_extends (cd : Codec) (mode : CompressMode) (S : Cnt)
    (kv : String × Bytes) :
    PacksExtend S.packs (packLooseOne cd mode S kv).packs := by
  cases h : alookup kv.1 S.catalog with
  | some r => rw [packLooseOne_of_dup cd mode S kv r h]; exact packsExtend_refl _
  | none =>
    rw [packLooseOne_of_fresh cd mode S kv h]
    show PacksExtend S.packs (append_stream S (packData cd mode kv.2)).1.packs
    exact append_stream_extends S _

/-- A fresh key packed by one step gains a catalog row whose pack region
decodes back to the original loose bytes. -/
theorem packLooseOne_fresh_step (cd : Codec) (mode : CompressMode)
    (hcodec : ∀ x, cd.decode (cd.encode x) = x) (T : Cnt)
    (kv : String × Bytes) (hfresh : alookup kv.1 T.catalog = none) :
    (packLooseOne cd mode T kv).catalog =
      T.catalog ++ [(kv.1, packRow cd mode T kv.2)] ∧
    read_from_packs (packLooseOne cd mode T kv) (packRow cd mode T kv.2) =
      some (packData cd mode kv.2) ∧
    (if (packRow cd mode T kv.2).compressed
      then cd.decode (packData cd mode kv.2)
      else packData cd mode kv.2) = kv.2 := by
  refine ⟨?_, ?_, ?_⟩
  · rw [packLooseOne_of_fresh cd mode T kv hfresh]
    show (append_stream T (packData cd mode kv.2)).1.catalog ++ _ = _
    rw [append_stream_catalog]
  · rw [packLooseOne_of_fresh cd mode T kv hfresh]
    have hcongr : read_from_packs
        { (append_stream T (packData cd mode kv.2)).1 with
          catalog := (append_stream T (packData cd mode kv.2)).1.catalog ++
            [(kv.1, packRow cd mode T kv.2)],
          loose := (append_stream T (packData cd mode kv.2)).1.loose.filter
            (fun p => p.1 ≠ kv.1) }
        (packRow cd mode T kv.2) =
        read_from_packs (append_stream T (packData cd mode kv.2)).1
          (packRow cd mode T kv.2) :=
      read_from_packs_congr _ _ _ rfl
    rw [hcongr]
    show read_from_packs (append_stream T (packData cd mode kv.2)).1
      ⟨(append_stream T (packData cd mode kv.2)).2.1,
       (append_stream T (packData cd mode kv.2)).2.2,
       (packData cd mode kv.2).length, kv.2.length,
       shouldCompress cd mode kv.2,
       if shouldCompress cd mode kv.2 then "zlib:+1" else ""⟩ =
      some (packData cd mode kv.2)
    exact append_stream_read T (packData cd mode kv.2) kv.2.length _ _
  · show (if shouldCompress cd mode kv.2
      then cd.decode (packData cd mode kv.2)
      else packData cd mode kv.2) = kv.2
    by_cases hc : shouldCompress cd mode kv.2 <;> simp [packData, hc, hcodec]

/-! ## Counting catalog rows -/

theorem countKey_append_single (k : String) (c : List (String × Row))
    (k' : String) (r' : Row) :
    countKey k (c ++ [(k', r')]) =
      countKey k c + (if k' = k then 1 else 0) := by
  simp only [countKey, List.filter_append]
  by_cases h : k' = k <;> simp [h]

theorem countKey_eq_zero_of_alookup_none (k : String)
    (l : List (String × Row)) (h : alookup k l = none) : countKey k l = 0 := by
  induction l with
  | nil => rfl
  | cons p rest ih =>
    rw [alookup] at h
    by_cases hp : p.1 = k
    · rw [if_pos hp] at h; cases h
    · rw [if_neg hp] at h
      simpa [countKey, List.filter_cons, hp] using ih h

theorem not_mem_keys_filter_self (k : String) (l : List (String × Bytes)) :
    k ∉ (l.filter (fun p => p.1 ≠ k)).map Prod.fst := by
  intro h
  obtain ⟨p, hp, hpk⟩ := List.mem_map.mp h
  have := (List.mem_filter.mp hp).2
  simp at this
  exact this hpk

theorem not_mem_keys_filter_of_not_mem (k k' : String)
    (l : List (String × Bytes)) (h : k ∉ l.map Prod.fst) :
    k ∉ (l.filter (fun p => p.1 ≠ k')).map Prod.fst := by
  intro hmem
  obtain ⟨p, hp, hpk⟩ := List.mem_map.mp hmem
  exact h (List.mem_map.mpr ⟨p, (List.mem_filter.mp hp).1, hpk⟩)

/-! ## Preservation through the remaining packing steps -/

theorem pack_fold_preserve (cd : Codec) (mode : CompressMode)
    (items : List (String × Bytes)) :
    ∀ (T : Cnt) (k : String) (r : Row) (bs : Bytes),
      alookup k T.catalog = some r →
      read_from_packs T r = some bs →
      k ∉ T.loose.map Prod.fst →
      k ∉ items.map Prod.fst →
      alookup k (items.foldl (packLooseOne cd mode) T).catalog = some r ∧
      read_from_packs (items.foldl (packLooseOne cd mode) T) r = some bs ∧
      k ∉ (items.foldl (packLooseOne cd mode) T).loose.map Prod.fst ∧
      countKey k (items.foldl (packLooseOne cd mode) T).catalog =
        countKey k T.catalog := by
  induction items with
  | nil => intro T k r bs h1 h2 h3 _; exact ⟨h1, h2, h3, rfl⟩
  | cons kv rest ih =>
    intro T k r bs h1 h2 h3 h4
    simp only [List.map_cons, List.mem_cons] at h4
    push_neg at h4
    have hkne : kv.1 ≠ k := fun hh => h4.1 hh.symm
    have hcat : alookup k (packLooseOne cd mode T kv).catalog = some r ∧
        countKey k (packLooseOne cd mode T kv).catalog =
          countKey k T.catalog := by
      rcases packLooseOne_catalog_cases cd mode T kv with hsame | ⟨r', happ⟩
      · rw [hsame]; exact ⟨h1, rfl⟩
      · rw [happ]
        constructor
        · rw [alookup_append, h1]
        · rw [countKey_append_single, if_neg hkne]
          omega
    have hread : read_from_packs (packLooseOne cd mode T kv) r = some bs :=
      read_from_packs_extend T _ r bs (packLooseOne_extends cd mode T kv) h2
    have hloose : k ∉ (packLooseOne cd mode T kv).loose.map Prod.fst := by
      rw [packLooseOne_loose]
      exact not_mem_keys_filter_of_not_mem k kv.1 T.loose h3
    have := ih (packLooseOne cd mode T kv) k r bs hcat.1 hread hloose h4.2
    simp only [List.foldl_cons]
    exact ⟨this.1, this.2.1, this.2.2.1, this.2.2.2.trans hcat.2⟩

/-- Main fold lemma: every item of a batch of distinct, catalog-fresh loose
keys ends up packed, readable, absent from loose, and with exactly one new
catalog row. -/
theorem pack_fold_main (cd : Codec) (mode : CompressMode)
    (hcodec : ∀ x, cd.decode (cd.encode x) = x)
    (items : List (String × Bytes)) :
    ∀ (T : Cnt) (k : String) (v : Bytes),
      (k, v) ∈ items →
      (items.map Prod.fst).Nodup →
      (∀ p ∈ items, alookup p.1 T.catalog = none) →
      extract_from_packs cd (items.foldl (packLooseOne cd mode) T) k = some v ∧
      k ∉ (items.foldl (packLooseOne cd mode) T).loose.map Prod.fst ∧
      countKey k (items.foldl (packLooseOne cd mode) T).catalog =
        countKey k T.catalog + 1 := by
  induction items with
  | nil => intro T k v hin; cases hin
  | cons kv rest ih =>
    intro T k v hin hnd hfresh
    have hnd_head : kv.1 ∉ rest.map Prod.fst := by
      simp only [List.map_cons, List.nodup_cons] at hnd
      exact hnd.1
    have hnd_rest : (rest.map Prod.fst).Nodup := by
      simp only [List.map_cons, List.nodup_cons] at hnd
      exact hnd.2
    rcases List.mem_cons.mp hin with heq | hmem
    · have hk : kv = (k, v) := heq.symm
      subst hk
      have hfr : alookup (k, v).1 T.catalog = none := hfresh (k, v) (by simp)
      obtain ⟨hcat, hread, hdec⟩ :=
        packLooseOne_fresh_step cd mode hcodec T (k, v) hfr
      have hlk : alookup k (packLooseOne cd mode T (k, v)).catalog =
          some (packRow cd mode T (k, v).2) := by
        rw [hcat, alookup_append]
        rw [show ((k, v).1 : String) = k from rfl] at hfr
        rw [hfr]
        exact alookup_singleton_same k _
      have hcount : countKey k (packLooseOne cd mode T (k, v)).catalog =
          countKey k T.catalog + 1 := by
        rw [hcat, countKey_append_single, if_pos rfl]
      have hlo : k ∉ (packLooseOne cd mode T (k, v)).loose.map Prod.fst := by
        rw [packLooseOne_loose]
        exact not_mem_keys_filter_self k T.loose
      have hpres := pack_fold_preserve cd mode rest
        (packLooseOne cd mode T (k, v)) k (packRow cd mode T (k, v).2)
        (packData cd mode (k, v).2) hlk hread hlo hnd_head
      simp only [List.foldl_cons]
      refine ⟨?_, hpres.2.2.1, hpres.2.2.2.trans hcount⟩
      simp [extract_from_packs, hpres.1, hpres.2.1, hdec]
    · have hkne : kv.1 ≠ k := by
        intro hh
        apply hnd_head
        rw [hh]
        exact List.mem_map.mpr ⟨(k, v), hmem, rfl⟩
      have hfresh' : ∀ p ∈ rest, alookup p.1
          (packLooseOne cd mode T kv).catalog = none := by
        intro p hp
        have hpne : kv.1 ≠ p.1 := by
          intro hh
          apply hnd_head
          rw [hh]
          exact List.mem_map.mpr ⟨p, hp, rfl⟩
        rcases packLooseOne_catalog_cases cd mode T kv with hsame | ⟨r', happ⟩
        · rw [hsame]; exact hfresh p (by simp [hp])
        · rw [happ, alookup_append, hfresh p (by simp [hp])]
          simp [alookup, hpne]
      have hstep := ih (packLooseOne cd mode T kv) k v hmem hnd_rest hfresh'
      simp only [List.foldl_cons]
      refine ⟨hstep.1, hstep.2.1, ?_⟩
      rw [hstep.2.2]
      congr 1
      rcases packLooseOne_catalog_cases cd mode T kv with hsame | ⟨r', happ⟩
      · rw [hsame]
      · rw [happ, countKey_append_single, if_neg hkne]
        omega

/-- Postcondition of the native `pack_all_loose` under a fixed mode. -/
theorem rs_pack_all_loose_post (cd : Codec) (mode : CompressMode) (S : Cnt)
    (hcodec : ∀ x, cd.decode (cd.encode x) = x)
    (hnodup : (S.loose.map Prod.fst).Nodup)
    (hdisj : ∀ p ∈ S.loose, alookup p.1 S.catalog = none)
    (k : String) (v : Bytes) (hin : (k, v) ∈ S.loose) :
    get_object_content cd (rs_pack_all_loose cd mode S) k = some v ∧
    alookup k (rs_pack_all_loose cd mode S).loose = none ∧
    countKey k (rs_pack_all_loose cd mode S).catalog = 1 := by
  have hmain := pack_fold_main cd mode hcodec S.loose S k v hin hnodup hdisj
  have hzero : countKey k S.catalog = 0 :=
    countKey_eq_zero_of_alookup_none k S.catalog (hdisj (k, v) hin)
  unfold rs_pack_all_loose
  have hlnone : alookup k
      (S.loose.foldl (packLooseOne cd mode) S).loose = none :=
    alookup_eq_none_of_not_mem_keys k _ hmain.2.1
  refine ⟨?_, hlnone, by rw [hmain.2.2, hzero]⟩
  unfold get_object_content write_stream_from_loose
  rw [hlnone]
  exact hmain.1

/-- C5: after `pack_all_loose` on a container whose loose keys are distinct
and disjoint from the catalog (spec invariant 2), every previously loose
object is still readable through `get_object_content`, its loose file is
gone, and exactly one catalog row exists for its key.  Holds for any
compress argument and any codec satisfying the decode-encode round trip. -/
theorem pack_all_loose_post (cd : Codec) (compress : Sum Bool CompressMode)
    (validate_objects : Bool) (do_fsync : Bool) (S : Cnt)
    (hcodec : ∀ x, cd.decode (cd.encode x) = x)
    (hnodup : (S.loose.map Prod.fst).Nodup)
    (hdisj : ∀ p ∈ S.loose, alookup p.1 S.catalog = none)
    (k : String) (v : Bytes) (hin : (k, v) ∈ S.loose) :
    get_object_content cd
      (pack_all_loose cd S compress validate_objects do_fsync) k = some v ∧
    alookup k
      (pack_all_loose cd S compress validate_objects do_fsync).loose = none ∧
    countKey k
      (pack_all_loose cd S compress validate_objects do_fsync).catalog = 1 := by
  cases compress with
  | inl b =>
    cases b
    · exact rs_pack_all_loose_post cd CompressMode.NO S hcodec hnodup hdisj k v hin
    · exact rs_pack_all_loose_post cd CompressMode.YES S hcodec hnodup hdisj k v hin
  | inr m => exact rs_pack_all_loose_post cd m S hcodec hnodup hdisj k v hin

/-- Witness for C5 on a container with two loose objects and the identity
codec. -/
theorem pack_all_loose_post_witness :
    get_object_content idCodec
      (pack_all_loose idCodec ⟨[("aa", [1]), ("bb", [2, 3])], [], [], 100⟩
        (Sum.inr CompressMode.NO) true true) "bb" = some [2, 3] ∧
    alookup "bb"
      (pack_all_loose idCodec ⟨[("aa", [1]), ("bb", [2, 3])], [], [], 100⟩
        (Sum.inr CompressMode.NO) true true).loose = none ∧
    countKey "bb"
      (pack_all_loose idCodec ⟨[("aa", [1]), ("bb", [2, 3])], [], [], 100⟩
        (Sum.inr CompressMode.NO) true true).catalog = 1 :=
  pack_all_loose_post idCodec (Sum.inr CompressMode.NO) true true
    ⟨[("aa", [1]), ("bb", [2, 3])], [], [], 100⟩ (fun x => rfl)
    (by decide) (by decide) "bb" [2, 3] (by decide)

/-! ## Pack-file rollover (C8) -/

/-- The state component of the batched insert fold ignores the accumulated
pairs. -/
theorem insert_many_to_packs_state (contents : List Bytes) :
    ∀ (S : Cnt) (acc : List (Nat × String)),
      (contents.foldl
        (fun acc content =>
          let r := packOne idCodec false acc.1 content
          (r.1, acc.2 ++ [r.2]))
        (S, acc)).1 =
      contents.foldl (fun T c => (packOne idCodec false T c).1) S := by
  induction contents with
  | nil => intro S acc; rfl
  | cons c rest ih => intro S acc; simp only [List.foldl_cons]; rw [ih]

theorem packOne_of_dup (cd : Codec) (compress : Bool) (S : Cnt) (c : Bytes)
    (r : Row) (h : alookup (sha256Hex c) S.catalog = some r) :
    packOne cd compress S c = (S, (c.length, sha256Hex c)) := by
  simp [packOne, h]

theorem packOne_fresh_target (S : Cnt) (c : Bytes)
    (h : alookup (sha256Hex c) S.catalog = none) :
    (packOne idCodec false S c).1.pack_size_target = S.pack_size_target := by
  simp only [packOne, h, append_stream]
  cases hl : S.packs.getLast? with
  | none => rfl
  | some cur => by_cases ht : S.pack_size_target ≤ cur.length <;> simp [ht]

theorem packOne_fresh_catalog_keys (S : Cnt) (c : Bytes)
    (h : alookup (sha256Hex c) S.catalog = none) :
    (packOne idCodec false S c).1.catalog.map Prod.fst =
      S.catalog.map Prod.fst ++ [sha256Hex c] := by
  simp only [packOne, h, append_stream]
  cases hl : S.packs.getLast? with
  | none => simp
  | some cur => by_cases ht : S.pack_size_target ≤ cur.length <;> simp [ht]

theorem packOne_fresh_packs_empty (S : Cnt) (c : Bytes)
    (h : alookup (sha256Hex c) S.catalog = none) (hp : S.packs = []) :
    (packOne idCodec false S c).1.packs = [c] := by
  simp [packOne, h, append_stream, hp]

theorem packOne_fresh_rollover (S : Cnt) (c : Bytes) (cur : Bytes)
    (h : alookup (sha256Hex c) S.catalog = none)
    (hl : S.packs.getLast? = some cur)
    (ht : S.pack_size_target ≤ cur.length) :
    (packOne idCodec false S c).1.packs = S.packs ++ [c] := by
  simp [packOne, h, append_stream, hl, ht]

theorem packOne_fresh_extend (S : Cnt) (c : Bytes) (cur : Bytes)
    (h : alookup (sha256Hex c) S.catalog = none)
    (hl : S.packs.getLast? = some cur)
    (ht : cur.length < S.pack_size_target) :
    (packOne idCodec false S c).1.packs =
      S.packs.set (S.packs.length - 1) (cur ++ c) := by
  simp [packOne, h, append_stream, hl, Nat.not_le_of_lt ht]

theorem packOne_packs_len_mono (cd : Codec) (compress : Bool) (S : Cnt)
    (c : Bytes) : S.packs.length ≤ (packOne cd compress S c).1.packs.length := by
  simp only [packOne]
  cases hc : alookup (sha256Hex c) S.catalog with
  | some r => simp
  | none =>
    simp only [append_stream]
    cases hl : S.packs.getLast? with
    | none =>
      have : S.packs = [] := List.getLast?_eq_none_iff.mp hl
      simp [this]
    | some cur =>
      by_cases ht : S.pack_size_target ≤ cur.length <;> simp [ht]

theorem insert_fold_packs_len_mono (contents : List Bytes) :
    ∀ S : Cnt, S.packs.length ≤
      (contents.foldl (fun T c => (packOne idCodec false T c).1) S).packs.length := by
  induction contents with
  | nil => intro S; exact le_refl _
  | cons c rest ih =>
    intro S
    exact le_trans (packOne_packs_len_mono idCodec false S c) (ih _)

/-- Fold invariant for a batch of fresh, pairwise-distinct keys starting
from a state whose packs are empty, a single pack, or already two or more:
the target is preserved, the catalog keys extend in order, and the pack
files either number at least two or form a single pack holding the whole
stored payload. -/
theorem insert_many_inv (t : Nat) (M : List Bytes) :
    ∀ (T : Cnt) (processed : List Bytes),
      ((processed ++ M).map sha256Hex).Nodup →
      T.pack_size_target = t →
      T.catalog.map Prod.fst = processed.map sha256Hex →
      (2 ≤ T.packs.length ∨
        (∃ p, T.packs = [p] ∧ p.length = (processed.map List.length).sum) ∨
        (T.packs = [] ∧ processed = [])) →
      (M.foldl (fun T c => (packOne idCodec false T c).1) T).pack_size_target = t ∧
      (M.foldl (fun T c => (packOne idCodec false T c).1) T).catalog.map Prod.fst =
        (processed ++ M).map sha256Hex ∧
      (2 ≤ (M.foldl (fun T c => (packOne idCodec false T c).1) T).packs.length ∨
        (∃ p, (M.foldl (fun T c => (packOne idCodec false T c).1) T).packs = [p] ∧
          p.length = ((processed ++ M).map List.length).sum) ∨
        ((M.foldl (fun T c => (packOne idCodec false T c).1) T).packs = [] ∧
          processed ++ M = [])) := by
  induction M with
  | nil =>
    intro T processed hnd htg hck hpk
    simpa using ⟨htg, hck, hpk⟩
  | cons c rest ih =>
    intro T processed hnd htg hck hpk
    have hfresh : alookup (sha256Hex c) T.catalog = none := by
      apply alookup_eq_none_of_not_mem_keys
      rw [hck]
      intro hmem
      have : ((processed ++ c :: rest).map sha256Hex).Nodup := hnd
      rw [List.map_append] at this
      exact (List.disjoint_of_nodup_append this) hmem (by simp)
    have hT' := packOne_fresh_target T c hfresh
    have hC' := packOne_fresh_catalog_keys T c hfresh
    have step : ((c :: rest).foldl (fun T c => (packOne idCodec false T c).1) T) =
        rest.foldl (fun T c => (packOne idCodec false T c).1)
          (packOne idCodec false T c).1 := by simp
    rw [step]
    have hnd' : ((processed ++ [c] ++ rest).map sha256Hex).Nodup := by
      simpa using hnd
    have hck' : (packOne idCodec false T c).1.catalog.map Prod.fst =
        (processed ++ [c]).map sha256Hex := by
      rw [hC', hck]; simp
    have hpk' : (2 ≤ (packOne idCodec false T c).1.packs.length ∨
        (∃ p, (packOne idCodec false T c).1.packs = [p] ∧
          p.length = ((processed ++ [c]).map List.length).sum) ∨
        ((packOne idCodec false T c).1.packs = [] ∧ processed ++ [c] = [])) := by
      rcases hpk with h2 | ⟨p, hp, hlen⟩ | ⟨he, hpr⟩
      · exact Or.inl (le_trans h2 (packOne_packs_len_mono idCodec false T c))
      · cases hlast : T.packs.getLast? with
        | none =>
          rw [List.getLast?_eq_none_iff.mp hlast] at hp
          cases hp
        | some cur =>
          have hcur : cur = p := by
            rw [hp] at hlast
            simpa using hlast.symm
          subst hcur
          by_cases ht : T.pack_size_target ≤ cur.length
          · left
            rw [packOne_fresh_rollover T c cur hfresh hlast ht, hp]
            simp
          · right; left
            refine ⟨cur ++ c, ?_, ?_⟩
            · rw [packOne_fresh_extend T c cur hfresh hlast (Nat.lt_of_not_le ht), hp]
              simp
            · simp [hlen]
      · right; left
        refine ⟨c, packOne_fresh_packs_empty T c hfresh he, ?_⟩
        simp [hpr]
    have := ih (packOne idCodec false T c).1 (processed ++ [c])
      (by simpa using hnd') (by rw [hT', htg]) hck' hpk'
    refine ⟨this.1, ?_, ?_⟩
    · rw [this.2.1]; simp
    · rcases this.2.2 with h2 | ⟨p, hp, hlen⟩ | ⟨he, hpr⟩
      · exact Or.inl h2
      · right; left
        exact ⟨p, hp, by rw [hlen]; simp⟩
      · right; right
        exact ⟨he, by simpa using hpr⟩

/-- C8 amended: starting from a freshly initialised container, if some
proper prefix of a batch of pairwise-distinct objects already totals at
least `pack_size_target` in stored bytes, then after
`insert_many_to_packs` at least two pack files exist.  (The original claim
fails when only the final object pushes the total past the target, because
rollover is decided before each write.) -/
theorem insert_many_to_packs_rollover (t : Nat) (L : List Bytes) (j : Nat)
    (hnodup : (L.map sha256Hex).Nodup) (hj : j + 1 < L.length)
    (hsum : t ≤ ((L.take (j + 1)).map List.length).sum) :
    2 ≤ count_pack_file (insert_many_to_packs (initContainer t) L).1 := by
  unfold count_pack_file insert_many_to_packs
  rw [insert_many_to_packs_state]
  have hsplit : L = L.take (j + 1) ++ L.drop (j + 1) :=
    (List.take_append_drop (j + 1) L).symm
  have hnd2 : ((L.take (j + 1) ++ L.drop (j + 1)).map sha256Hex).Nodup := by
    rw [← hsplit]; exact hnodup
  have hndP : ((L.take (j + 1)).map sha256Hex).Nodup := by
    rw [List.map_append] at hnd2
    exact hnd2.of_append_left
  have hinv := insert_many_inv t (L.take (j + 1)) (initContainer t) []
    hndP rfl rfl (Or.inr (Or.inr ⟨rfl, rfl⟩))
  set T1 := (L.take (j + 1)).foldl (fun T c => (packOne idCodec false T c).1)
    (initContainer t) with hT1
  have hfold : L.foldl (fun T c => (packOne idCodec false T c).1)
      (initContainer t) =
      (L.drop (j + 1)).foldl (fun T c => (packOne idCodec false T c).1) T1 := by
    conv_lhs => rw [hsplit]
    rw [List.foldl_append]
  rw [hfold]
  have hrest : L.drop (j + 1) ≠ [] := by
    intro he
    have := List.length_drop (j + 1) L
    rw [he] at this
    simp at this
    omega
  obtain ⟨r0, R', hR⟩ := List.exists_cons_of_ne_nil hrest
  rw [hR]
  rcases hinv.2.2 with h2 | ⟨p, hp, hlen⟩ | ⟨-, hpr⟩
  · calc 2 ≤ T1.packs.length := h2
      _ ≤ _ := by
        rw [List.foldl_cons]
        exact le_trans (packOne_packs_len_mono idCodec false T1 r0)
          (insert_fold_packs_len_mono R' _)
  · have hfresh : alookup (sha256Hex r0) T1.catalog = none := by
      apply alookup_eq_none_of_not_mem_keys
      rw [hinv.2.1]
      simp only [List.nil_append]
      intro hmem
      have hnd3 := hnd2
      rw [List.map_append] at hnd3
      exact (List.disjoint_of_nodup_append hnd3) hmem (by rw [hR]; simp)
    have hlast : T1.packs.getLast? = some p := by rw [hp]; rfl
    have ht : T1.pack_size_target ≤ p.length := by
      rw [hinv.1, hlen]
      simpa using hsum
    have h2' : (packOne idCodec false T1 r0).1.packs.length = 2 := by
      rw [packOne_fresh_rollover T1 r0 p hfresh hlast ht, hp]
      rfl
    rw [List.foldl_cons]
    calc 2 = (packOne idCodec false T1 r0).1.packs.length := h2'.symm
      _ ≤ _ := insert_fold_packs_len_mono R' _
  · exfalso
    have hpr' : L.take (j + 1) = [] := by simpa using hpr
    have : (L.take (j + 1)).length = 0 := by rw [hpr']; rfl
    rw [List.length_take] at this
    omega

set_option maxRecDepth 10000 in
/-- Witness for the amended C8 at target 2 and the batch `[[1,2],[3]]`. -/
theorem insert_many_to_packs_rollover_witness :
    2 ≤ count_pack_file (insert_many_to_packs (initContainer 2) [[1, 2], [3]]).1 :=
  insert_many_to_packs_rollover 2 [[1, 2], [3]] 0 (by decide) (by decide)
    (by decide)

set_option maxRecDepth 10000 in
/-- C8 counterexample: a batch whose total stored size exceeds the target
only through its final object leaves a single pack file, because rollover
is decided before each write; here the stored sizes are 1 and 4 against a
target of 4, yet `count_pack_file` is 1, not at least 2. -/
theorem count_pack_file_rollover_counterexample :
    (((insert_many_to_packs (initContainer 4) [[7], [1, 2, 3, 4]]).1.packs.map
        List.length).sum = 5) ∧
    4 < 5 ∧
    count_pack_file (insert_many_to_packs (initContainer 4) [[7], [1, 2, 3, 4]]).1
      = 1 ∧
    ¬ 2 ≤ count_pack_file
        (insert_many_to_packs (initContainer 4) [[7], [1, 2, 3, 4]]).1 := by
  decide

/-- C2 is a code bug: `list_all_objects` walks only the loose directory and
concatenates the two full `Path` values, so a container holding one loose
object `"aabb"` and one packed, readable object `"ccdd"` is listed as a
single garbled path string; neither actual hash key is ever yielded and the
packed key is missing entirely. -/
theorem list_all_objects_misses_packed_keys :
    list_all_objects "/c" ⟨[("aabb", [1])], [("ccdd", ⟨0, 0, 1, 1, false, ""⟩)], [[2]], 10⟩ =
      ["/c/loose/aa/c/loose/aa/bb"] ∧
    "aabb" ∉ list_all_objects "/c"
      ⟨[("aabb", [1])], [("ccdd", ⟨0, 0, 1, 1, false, ""⟩)], [[2]], 10⟩ ∧
    "ccdd" ∉ list_all_objects "/c"
      ⟨[("aabb", [1])], [("ccdd", ⟨0, 0, 1, 1, false, ""⟩)], [[2]], 10⟩ ∧
    get_object_content idCodec
      ⟨[("aabb", [1])], [("ccdd", ⟨0, 0, 1, 1, false, ""⟩)], [[2]], 10⟩ "ccdd" =
      some [2] := by decide

end Rsdos
